import Mathlib

/-!
Shallow embedding of the motif audio engine core (crates motif-core,
motif-engine, motif-instruments/motif-pulse) and proofs about it.

Machine integers (u64, u32, usize) are modelled as Nat: tick positions,
sample indices, frame counts and ages are musically-sized quantities far
below 2^64, and the one operation whose underflow behaviour matters
(the Sub impl on Tick) is modelled explicitly as a checked subtraction
returning Option. Floating point values (f32/f64 levels, times, rates)
are modelled as exact rationals.
-/

namespace Motif

/-- Ticks per quarter note, 480 PPQ (motif-core/src/tick.rs). -/
def TICKS_PER_QUARTER : ℕ := 480

namespace Tick

/-- Zero tick (Tick::ZERO). -/
def ZERO : ℕ := 0

/-- Tick::from_quarters. -/
def from_quarters (quarters : ℕ) : ℕ := quarters * TICKS_PER_QUARTER

/-- Tick::snap_to_grid: round to the nearest grid line, ties round up.
Computed as ((t + grid / 2) / grid) * grid in integer arithmetic. -/
def snap_to_grid (t grid : ℕ) : ℕ := ((t + grid / 2) / grid) * grid

/-- Tick::saturating_sub: u64 saturating subtraction, which is exactly
truncated Nat subtraction. -/
def saturating_sub (t other : ℕ) : ℕ := t - other

/-- The Sub impl on Tick (self.0 - rhs.0 on u64): plain u64 subtraction
panics on underflow in debug builds (and wraps in release); modelled as a
checked subtraction that returns none when the result would be negative. -/
def sub (t other : ℕ) : Option ℕ := if other ≤ t then some (t - other) else none

end Tick

/-- Clock state (motif-engine/src/clock.rs): sample position and rate. -/
structure Clock where
  sample_position : ℕ
  sample_rate : ℚ

namespace Clock

/-- Clock::tick_to_sample: seconds = (tick / 480) / (bpm / 60);
result = ceil(seconds * sample_rate) cast to u64. -/
def tick_to_sample (c : Clock) (tick : ℕ) (bpm : ℚ) : ℕ :=
  let seconds : ℚ := ((tick : ℚ) / (TICKS_PER_QUARTER : ℚ)) / (bpm / 60)
  (⌈seconds * c.sample_rate⌉).toNat

/-- Clock::sample_to_tick: seconds = sample / sample_rate;
quarters = seconds * (bpm / 60); result = trunc(quarters * 480). -/
def sample_to_tick (c : Clock) (sample : ℕ) (bpm : ℚ) : ℕ :=
  let seconds : ℚ := (sample : ℚ) / c.sample_rate
  let quarters : ℚ := seconds * (bpm / 60)
  (⌊quarters * (TICKS_PER_QUARTER : ℚ)⌋).toNat

end Clock

/-- MidiEvent (motif-engine/src/events.rs); note and velocity are the
7-bit MIDI values carried by wmidi's Note and Velocity. -/
inductive MidiEvent where
  | noteOn (note velocity : ℕ)
  | noteOff (note : ℕ)
deriving DecidableEq

/-- Event (motif-engine/src/events.rs): closed variant set, MIDI only. -/
inductive Event where
  | midi (m : MidiEvent)
deriving DecidableEq

/-- RoutedEvent: an event plus its destination track. -/
structure RoutedEvent where
  track_id : ℕ
  event : Event
deriving DecidableEq

/-- ScheduledEvent: an event plus a sample offset into the current buffer. -/
structure ScheduledEvent where
  sample_offset : ℕ
  event : Event
deriving DecidableEq

/-- One observable call made by evaluate_node on the node it drives:
either render over the frame range lo..hi, or handle_event. -/
inductive Action where
  | render (lo hi : ℕ)
  | handle (e : Event)
deriving DecidableEq

/-- The loop body of evaluate_node (motif-engine/src/graph.rs), recorded as
the trace of render / handle_event calls. For each event: if its offset
exceeds the cursor, render cursor..offset; then handle the event and move
the cursor to the offset. After the last event, render cursor..total_frames
if the cursor has not reached the end. -/
def evaluateNodeGo (total_frames : ℕ) (cursor : ℕ) : List ScheduledEvent → List Action
  | [] => if cursor < total_frames then [Action.render cursor total_frames] else []
  | ev :: rest =>
    (if ev.sample_offset > cursor then [Action.render cursor ev.sample_offset] else [])
      ++ Action.handle ev.event :: evaluateNodeGo total_frames ev.sample_offset rest

/-- evaluate_node: the trace of calls made for one buffer of total_frames
frames, starting with the cursor at 0. -/
def evaluate_node (total_frames : ℕ) (events : List ScheduledEvent) : List Action :=
  evaluateNodeGo total_frames 0 events

/-- Modelled from the spec: one step of the cursor walk described in spec
section 4.5 — for each event at offset o, if o > cursor emit render(cursor..o),
then emit the handle_event call and set cursor = o. -/
def specStep (acc : ℕ × List Action) (ev : ScheduledEvent) : ℕ × List Action :=
  (ev.sample_offset,
    acc.2 ++ (if ev.sample_offset > acc.1 then [Action.render acc.1 ev.sample_offset] else [])
      ++ [Action.handle ev.event])

/-- Modelled from the spec: the full call sequence of spec section 4.5 —
walk the events with a cursor starting at 0, then after the last event emit
render(cursor..N) exactly when cursor < N. -/
def specSlicing (total_frames : ℕ) (events : List ScheduledEvent) : List Action :=
  let st := events.foldl specStep (0, [])
  st.2 ++ (if st.1 < total_frames then [Action.render st.1 total_frames] else [])

/-- Frames covered by the render calls of a trace, in emission order. -/
def renderedFrames : List Action → List ℕ
  | [] => []
  | Action.render lo hi :: rest => List.range' lo (hi - lo) ++ renderedFrames rest
  | Action.handle _ :: rest => renderedFrames rest

/-- The events passed to handle_event by a trace, in call order. -/
def handleCalls : List Action → List Event
  | [] => []
  | Action.render _ _ :: rest => handleCalls rest
  | Action.handle e :: rest => e :: handleCalls rest

/-- Events sorted ascending by sample offset, the precondition
evaluate_node documents (events must be pre-sorted by offset). -/
def sortedByOffset (events : List ScheduledEvent) : Prop :=
  List.Pairwise (fun a b => a.sample_offset ≤ b.sample_offset) events

/-- AudioBuffer (motif-engine/src/buffer.rs): planar channel data plus the
prepared (active) frame count. -/
structure AudioBuffer where
  data : List (List ℚ)
  frames : ℕ

namespace AudioBuffer

/-- AudioBuffer::new: each channel allocated at max_frames, zero-filled,
prepared frame count 0. -/
def new (channels max_frames : ℕ) : AudioBuffer :=
  { data := List.replicate channels (List.replicate max_frames 0), frames := 0 }

/-- In-place zeroing of the first `frames` samples of one channel
(the loop body of prepare). -/
def zeroFill (frames : ℕ) (ch : List ℚ) : List ℚ :=
  List.replicate (min frames ch.length) 0 ++ ch.drop frames

/-- AudioBuffer::prepare: set the active frame count and zero-fill exactly
the first `frames` samples of every channel. -/
def prepare (b : AudioBuffer) (frames : ℕ) : AudioBuffer :=
  { data := b.data.map (zeroFill frames), frames := frames }

/-- AudioBuffer::channel: a channel viewed up to the prepared frame count. -/
def channel (b : AudioBuffer) (ch : ℕ) : List ℚ :=
  (b.data.getD ch []).take b.frames

/-- AudioBuffer::channel_mut returns the same frame-bounded view as channel
(mutability is irrelevant in the functional model). -/
def channel_mut (b : AudioBuffer) (ch : ℕ) : List ℚ :=
  (b.data.getD ch []).take b.frames

end AudioBuffer

/-- Modelled from the spec: the engine error type (error.rs is not in src/).
Spec section 7: BufferFull is the only recoverable, caller-visible condition. -/
inductive EngineError where
  | bufferFull
deriving DecidableEq

/-- Modelled from the spec: the producer side of the bounded SPSC transport
queue (the rtrb ring buffer is an external crate). Spec section 4.3: fixed
capacity chosen at construction, holding RoutedEvent items. -/
structure Producer where
  capacity : ℕ
  items : List RoutedEvent
deriving DecidableEq

/-- Modelled from the spec: the non-blocking enqueue of the SPSC queue.
Spec section 4.3: on a full queue it fails immediately and the event is not
delivered; otherwise the event is appended. Returns the push result and the
resulting queue state. -/
def Producer.push (p : Producer) (x : RoutedEvent) : Except Unit Unit × Producer :=
  if p.items.length < p.capacity then (Except.ok (), { p with items := p.items ++ [x] })
  else (Except.error (), p)

/-- PlaybackControl (motif-engine/src/control.rs): wraps the producer. -/
structure PlaybackControl where
  producer : Producer
deriving DecidableEq

/-- PlaybackControl::send_midi: route the MIDI event to the track and
attempt a non-blocking push; a failed push maps to EngineError::BufferFull. -/
def PlaybackControl.send_midi (c : PlaybackControl) (track_id : ℕ) (midi : MidiEvent) :
    Except EngineError Unit × PlaybackControl :=
  let routed : RoutedEvent := { track_id := track_id, event := Event.midi midi }
  let res := c.producer.push routed
  (res.1.mapError (fun _ => EngineError.bufferFull), { c with producer := res.2 })

/-- ADSR stage (motif-pulse/src/envelope.rs). -/
inductive EState where
  | idle
  | attack
  | decay
  | sustain
  | release
deriving DecidableEq

/-- Per-voice linear ADSR envelope (motif-pulse/src/envelope.rs). The f32/f64
fields are modelled as rationals. The release field of the Rust struct is
named releaseTime here because the method Envelope.release keeps the source
name. -/
structure Envelope where
  state : EState
  level : ℚ
  attack : ℚ
  decay : ℚ
  sustain : ℚ
  releaseTime : ℚ
  release_start : ℚ
deriving DecidableEq

namespace Envelope

/-- Envelope::new, the Default derive: Idle, all numeric fields zero. -/
def new : Envelope :=
  { state := EState.idle, level := 0, attack := 0, decay := 0, sustain := 0,
    releaseTime := 0, release_start := 0 }

instance : Inhabited Envelope := ⟨new⟩

/-- Envelope::trigger: start from zero, enter Attack. -/
def trigger (e : Envelope) : Envelope :=
  { e with state := EState.attack, level := 0 }

/-- Envelope::release: capture the current level as release_start and
enter Release. -/
def release (e : Envelope) : Envelope :=
  { e with release_start := e.level, state := EState.release }

/-- Envelope::adsr: set the four shared parameters. -/
def adsr (e : Envelope) (attack decay sustain releaseTime : ℚ) : Envelope :=
  { e with attack := attack, decay := decay, sustain := sustain,
           releaseTime := releaseTime }

/-- The 1e-5 instant-time threshold used by Envelope::tick. -/
def eps : ℚ := 1 / 100000

/-- Rust f64::clamp(lo, hi): lo if below, hi if above, x otherwise. -/
def clampQ (x lo hi : ℚ) : ℚ := max lo (min x hi)

/-- Envelope::tick: advance one sample; the Rust return value is the level
of the resulting state. -/
def tick (e : Envelope) (sample_rate : ℚ) : Envelope :=
  match e.state with
  | EState.idle => e
  | EState.attack =>
    if e.attack < eps then { e with level := 1, state := EState.decay }
    else
      let l := e.level + 1 / (e.attack * sample_rate)
      if l > 1 then { e with level := clampQ l 0 1, state := EState.decay }
      else { e with level := l }
  | EState.decay =>
    if e.decay < eps then { e with level := e.sustain, state := EState.sustain }
    else
      let l := e.level - (1 - e.sustain) / (e.decay * sample_rate)
      if l < e.sustain then { e with level := clampQ l 0 e.sustain, state := EState.sustain }
      else { e with level := l }
  | EState.sustain => e
  | EState.release =>
    if e.releaseTime < eps then { e with level := 0, state := EState.idle }
    else
      let l := e.level - e.release_start / (e.releaseTime * sample_rate)
      if l < 0 then { e with level := 0, state := EState.idle }
      else { e with level := l }

/-- Envelope::is_idle. -/
def is_idle (e : Envelope) : Bool := e.state = EState.idle

/-- Envelope::is_releasing. -/
def is_releasing (e : Envelope) : Bool := e.state = EState.release

/-- Envelope::reset: force Idle at level zero. -/
def reset (e : Envelope) : Envelope :=
  { e with state := EState.idle, level := 0 }

/-- One call of the Envelope public interface, for stating invariants over
arbitrary call sequences. -/
inductive ECall where
  | trigger
  | release
  | adsr (a d s r : ℚ)
  | reset
  | tick (sample_rate : ℚ)

/-- Well-formed calls: adsr arguments have non-negative times and a sustain
level in the unit interval; tick has a positive sample rate. -/
def wfCall : ECall → Prop
  | ECall.adsr a d s r => 0 ≤ a ∧ 0 ≤ d ∧ 0 ≤ s ∧ s ≤ 1 ∧ 0 ≤ r
  | ECall.tick sr => 0 < sr
  | _ => True

/-- Apply one interface call to an envelope. -/
def applyCall (e : Envelope) : ECall → Envelope
  | ECall.trigger => e.trigger
  | ECall.release => e.release
  | ECall.adsr a d s r => e.adsr a d s r
  | ECall.reset => e.reset
  | ECall.tick sr => e.tick sr

/-- Run a sequence of interface calls from a starting envelope. -/
def runCalls (e : Envelope) (cs : List ECall) : Envelope :=
  cs.foldl applyCall e

end Envelope

/-- Voice (motif-pulse/src/voice.rs). -/
structure Voice where
  phase : ℚ
  frequency : ℚ
  velocity : ℕ
  envelope : Envelope
  note : Option ℕ
  age : ℕ
deriving DecidableEq

namespace Voice

/-- Voice::new, the Default derive. -/
def new : Voice :=
  { phase := 0, frequency := 0, velocity := 0, envelope := Envelope.new,
    note := none, age := 0 }

instance : Inhabited Voice := ⟨new⟩

/-- Voice::trigger: reset phase, stamp note/velocity/frequency/age and
trigger the envelope. -/
def trigger (v : Voice) (note velocity : ℕ) (frequency : ℚ) (age : ℕ) : Voice :=
  { v with phase := 0, note := some note, velocity := velocity,
           frequency := frequency, age := age, envelope := v.envelope.trigger }

/-- Voice::release. -/
def release (v : Voice) : Voice :=
  { v with envelope := v.envelope.release }

/-- Voice::is_active: the envelope is not idle. -/
def is_active (v : Voice) : Bool := !v.envelope.is_idle

/-- Voice::reset. -/
def reset (v : Voice) : Voice :=
  { v with note := none, envelope := v.envelope.reset }

end Voice

/-- Pulse synth state (motif-pulse/src/synth.rs): voice pool, shared duty
cycle and ADSR parameters, global age counter. The pool is an array of 8 in
Rust, modelled as a list whose length the theorems fix at 8. -/
structure Pulse where
  voices : List Voice
  duty_cycle : ℚ
  attack : ℚ
  decay : ℚ
  sustain : ℚ
  release : ℚ
  next_age : ℕ
deriving DecidableEq

namespace Pulse

/-- Pulse::new: 8 default voices, duty 0.5, ADSR 0.01/0.1/0.7/0.15, age 0. -/
def new : Pulse :=
  { voices := List.replicate 8 Voice.new, duty_cycle := 1 / 2,
    attack := 1 / 100, decay := 1 / 10, sustain := 7 / 10, release := 3 / 20,
    next_age := 0 }

/-- The fold inside min_by_key over (index, voice) pairs: keep the current
best index and age, replace only on a strictly smaller age, so the first
minimal age wins. -/
def minAgeIndexGo (best_i best_age i : ℕ) : List Voice → ℕ
  | [] => best_i
  | v :: rest =>
    if v.age < best_age then minAgeIndexGo i v.age (i + 1) rest
    else minAgeIndexGo best_i best_age (i + 1) rest

/-- Index of the voice with the globally minimum age, ties broken by pool
order (Iterator::min_by_key returns the first minimal element). The empty
pool never occurs (the Rust array has 8 voices; unwrap). -/
def minAgeIndex : List Voice → ℕ
  | [] => 0
  | v :: rest => minAgeIndexGo 0 v.age 1 rest

/-- Voice selection on NoteOn: position of the first inactive voice, or,
when every voice is active, the first minimum-age voice. -/
def selectVoice (voices : List Voice) : ℕ :=
  match voices.findIdx? (fun v => !v.is_active) with
  | some i => i
  | none => minAgeIndex voices

/-- Trigger the selected voice with the incoming note data and the current
global age, then copy the synth's current shared ADSR parameters into its
envelope (trigger first, adsr second, as in the source). -/
def triggerVoice (p : Pulse) (v : Voice) (note velocity : ℕ) (freq : ℚ) : Voice :=
  let v1 := v.trigger note velocity freq p.next_age
  { v1 with envelope := v1.envelope.adsr p.attack p.decay p.sustain p.release }

/-- Pulse::handle_event. noteToFreq stands for wmidi's Note::to_freq_f64,
an external pitch-to-frequency table the theorems quantify over. -/
def handle_event (noteToFreq : ℕ → ℚ) (p : Pulse) (e : Event) : Pulse :=
  match e with
  | Event.midi m =>
    match m with
    | MidiEvent.noteOn note velocity =>
      let voice_index := selectVoice p.voices
      let sel := p.voices.getD voice_index Voice.new
      { p with
        voices := p.voices.set voice_index
          (p.triggerVoice sel note velocity (noteToFreq note)),
        next_age := p.next_age + 1 }
    | MidiEvent.noteOff note =>
      { p with
        voices := p.voices.map (fun v =>
          if v.note = some note ∧ v.envelope.is_releasing = false then v.release else v) }

/-- Pulse::reset. -/
def reset (p : Pulse) : Pulse :=
  { p with voices := p.voices.map Voice.reset, next_age := 0 }

end Pulse

/-- Envelope level invariant: the stored level, the sustain parameter and
the captured release start level all lie in the unit interval. -/
def EnvInv (e : Envelope) : Prop :=
  0 ≤ e.level ∧ e.level ≤ 1 ∧ 0 ≤ e.sustain ∧ e.sustain ≤ 1
    ∧ 0 ≤ e.release_start ∧ e.release_start ≤ 1

/-- The clock test fixture: 48 kHz sample rate. -/
def clock48 : Clock := { sample_position := 0, sample_rate := 48000 }

/-- Concrete event used by witnesses. -/
def evW : Event := Event.midi (MidiEvent.noteOn 60 100)

/-- Envelope in Attack whose next increment lands exactly on level 1:
attack time 1 s at sample rate 1 increments by exactly 1. -/
def attackCexEnv : Envelope :=
  { state := EState.attack, level := 0, attack := 1, decay := 1, sustain := 1 / 2,
    releaseTime := 1, release_start := 0 }

/-- Envelope in Release whose next decrement lands exactly on level 0:
release from 1 with release time 1 s at sample rate 2, current level 1/2. -/
def releaseCexEnv : Envelope :=
  { state := EState.release, level := 1 / 2, attack := 1, decay := 1, sustain := 1 / 2,
    releaseTime := 1, release_start := 1 }

/-- A control handle whose queue has free capacity. -/
def spaceCtl : PlaybackControl := { producer := { capacity := 2, items := [] } }

/-- A control handle whose queue is full (capacity 0). -/
def fullCtl : PlaybackControl := { producer := { capacity := 0, items := [] } }

/-- Concrete two-channel buffer used by the prepare witness. -/
def bufW : AudioBuffer := { data := [[1, 2, 3], [4, 5, 6]], frames := 3 }

/-- Concrete call sequence used by the envelope invariant witness. -/
def csW : List Envelope.ECall :=
  [Envelope.ECall.adsr (1 / 100) (1 / 10) (7 / 10) (3 / 20), Envelope.ECall.trigger,
   Envelope.ECall.tick 2, Envelope.ECall.release, Envelope.ECall.tick 2]

/-! ## Theorems -/

/-- Distance comparison for a grid point Q with t within half a grid step,
against any other grid point M. -/
theorem grid_dist_le (g t Q M : ℕ) (h1 : Q ≤ t + g / 2) (h2 : t + g / 2 < Q + g)
    (hM : M + g ≤ Q ∨ Q + g ≤ M ∨ M = Q) : Nat.dist Q t ≤ Nat.dist M t := by
  simp only [Nat.dist]
  omega

/-- A tie in distance against the chosen grid point only happens from below:
the chosen point is the upper of the two. -/
theorem grid_dist_tie (g t Q M : ℕ) (_h1 : Q ≤ t + g / 2) (h2 : t + g / 2 < Q + g)
    (hM : M + g ≤ Q ∨ Q + g ≤ M ∨ M = Q) (heq : Nat.dist M t = Nat.dist Q t) :
    M ≤ Q := by
  simp only [Nat.dist] at heq
  omega

/-- C7: for every tick t and grid size g > 0, snap_to_grid returns the
multiple of g nearest to t, a value exactly halfway between two grid lines
rounding up; tick 60 with grid 120 snaps to 120 and tick 50 with grid 120
snaps to 0. -/
theorem snap_to_grid_nearest (t g : ℕ) (hg : 0 < g) :
    g ∣ Tick.snap_to_grid t g
    ∧ (∀ m : ℕ, Nat.dist (Tick.snap_to_grid t g) t ≤ Nat.dist (m * g) t)
    ∧ (∀ m : ℕ, Nat.dist (m * g) t = Nat.dist (Tick.snap_to_grid t g) t →
        m * g ≤ Tick.snap_to_grid t g)
    ∧ Tick.snap_to_grid 60 120 = 120 ∧ Tick.snap_to_grid 50 120 = 0 := by
  have hdm := Nat.div_add_mod (t + g / 2) g
  have hmod : (t + g / 2) % g < g := Nat.mod_lt _ hg
  set q := (t + g / 2) / g with hq
  have hsnap : Tick.snap_to_grid t g = q * g := rfl
  rw [Nat.mul_comm g q] at hdm
  have key : ∀ m : ℕ, m * g + g ≤ q * g ∨ q * g + g ≤ m * g ∨ m * g = q * g := by
    intro m
    rcases Nat.lt_trichotomy m q with hm | hm | hm
    · left
      have h := Nat.mul_le_mul_right (k := g) (Nat.succ_le_of_lt hm)
      rwa [Nat.succ_mul] at h
    · right; right; rw [hm]
    · right; left
      have h := Nat.mul_le_mul_right (k := g) (Nat.succ_le_of_lt hm)
      rwa [Nat.succ_mul] at h
  refine ⟨⟨q, by rw [hsnap, Nat.mul_comm]⟩, ?_, ?_, by decide, by decide⟩
  · intro m
    rw [hsnap]
    exact grid_dist_le g t (q * g) (m * g) (by omega) (by omega) (key m)
  · intro m hm
    rw [hsnap] at hm ⊢
    exact grid_dist_tie g t (q * g) (m * g) (by omega) (by omega) (key m) hm

/-- C7 witness: instantiating the nearest-multiple property at tick 50,
grid 120 and the candidate multiple 1 * 120. -/
theorem snap_to_grid_nearest_witness :
    0 < 120 ∧ Nat.dist (Tick.snap_to_grid 50 120) 50 ≤ Nat.dist (1 * 120) 50 :=
  ⟨by decide, (snap_to_grid_nearest 50 120 (by decide)).2.1 1⟩

/-- C3 counterexample: the Sub impl on Tick does not saturate — subtracting
200 ticks from 100 ticks underflows (modelled as none, a debug-build panic)
instead of yielding the zero tick. -/
theorem tick_sub_underflow_cex :
    Tick.sub 100 200 = none ∧ Tick.sub 100 200 ≠ some Tick.ZERO := by
  decide

/-- C3 amended: saturating_sub (the saturating subtraction Tick supports)
yields zero whenever the subtrahend is larger, and in particular
100 − 200 = 0; the plain Sub operator instead fails (underflow) there
rather than saturating. -/
theorem tick_saturating_sub_amended (a b : ℕ) (h : a < b) :
    Tick.saturating_sub a b = Tick.ZERO ∧ Tick.sub a b = none
      ∧ Tick.saturating_sub 100 200 = Tick.ZERO := by
  refine ⟨Nat.sub_eq_zero_of_le (Nat.le_of_lt h), ?_, by decide⟩
  unfold Tick.sub
  rw [if_neg (by omega)]

/-- C3 witness: the amended statement at 100 − 200. -/
theorem tick_saturating_sub_amended_witness :
    100 < 200 ∧ Tick.saturating_sub 100 200 = Tick.ZERO :=
  ⟨by decide, (tick_saturating_sub_amended 100 200 (by decide)).1⟩

/-- C9: send_midi enqueues the routed event and returns Ok when the queue
has free capacity; on a full queue it returns BufferFull, leaves the queue
unchanged and does not deliver the event; BufferFull is the only error it
can return. -/
theorem send_midi_buffer_full (c : PlaybackControl) (track : ℕ) (midi : MidiEvent) :
    (c.producer.items.length < c.producer.capacity →
      (c.send_midi track midi).1 = Except.ok ()
      ∧ (c.send_midi track midi).2.producer.capacity = c.producer.capacity
      ∧ (c.send_midi track midi).2.producer.items
          = c.producer.items ++ [{ track_id := track, event := Event.midi midi }])
    ∧ (c.producer.capacity ≤ c.producer.items.length →
      (c.send_midi track midi).1 = Except.error EngineError.bufferFull
      ∧ (c.send_midi track midi).2 = c)
    ∧ (∀ err, (c.send_midi track midi).1 = Except.error err →
        err = EngineError.bufferFull) := by
  refine ⟨fun h => ?_, fun h => ?_, fun err _ => by cases err; rfl⟩
  · simp [PlaybackControl.send_midi, Producer.push, if_pos h, Except.mapError]
  · simp [PlaybackControl.send_midi, Producer.push, if_neg (Nat.not_lt.mpr h),
      Except.mapError]

/-- C9 witness: a queue with free capacity accepts the event, a full queue
rejects it unchanged. -/
theorem send_midi_buffer_full_witness :
    (spaceCtl.producer.items.length < spaceCtl.producer.capacity
      ∧ (spaceCtl.send_midi 3 (MidiEvent.noteOn 60 100)).1 = Except.ok ())
    ∧ (fullCtl.producer.capacity ≤ fullCtl.producer.items.length
      ∧ (fullCtl.send_midi 3 (MidiEvent.noteOn 60 100)).2 = fullCtl) :=
  ⟨⟨by decide, ((send_midi_buffer_full spaceCtl 3 (MidiEvent.noteOn 60 100)).1 (by decide)).1⟩,
   ⟨by decide, ((send_midi_buffer_full fullCtl 3 (MidiEvent.noteOn 60 100)).2.1 (by decide)).2⟩⟩

/-- General on-grid round trip: if a tick's exact sample position is the
integer s, then tick_to_sample lands on s and sample_to_tick recovers the
tick. -/
theorem clock_round_trip_aux (c : Clock) (bpm : ℚ) (t s : ℕ)
    (hsr : 0 < c.sample_rate) (hbpm : 0 < bpm)
    (hgrid : ((t : ℚ) / (TICKS_PER_QUARTER : ℚ)) / (bpm / 60) * c.sample_rate = (s : ℚ)) :
    c.tick_to_sample t bpm = s ∧ c.sample_to_tick (c.tick_to_sample t bpm) bpm = t := by
  have hsample : c.tick_to_sample t bpm = s := by
    dsimp only [Clock.tick_to_sample]
    rw [hgrid, Int.ceil_natCast, Int.toNat_natCast]
  refine ⟨hsample, ?_⟩
  rw [hsample]
  dsimp only [Clock.sample_to_tick]
  have hsr' : c.sample_rate ≠ 0 := ne_of_gt hsr
  have hbpm' : bpm ≠ 0 := ne_of_gt hbpm
  have htpq : (TICKS_PER_QUARTER : ℚ) ≠ 0 := by norm_num [TICKS_PER_QUARTER]
  have harg : (s : ℚ) / c.sample_rate * (bpm / 60) * (TICKS_PER_QUARTER : ℚ) = (t : ℚ) := by
    rw [← hgrid]
    field_simp
    ring
  rw [harg, Int.floor_natCast, Int.toNat_natCast]

/-- C2: at a positive tempo, a tick whose exact sample position is an
integer round-trips through tick_to_sample then sample_to_tick (and
tick_to_sample is that integer, ceiling of an exact value); in particular
the round trip holds for ticks 0, 480, 960, 1920 at 40, 120 and 300 BPM at
48 kHz. -/
theorem clock_round_trip_on_grid :
    (∀ (c : Clock) (bpm : ℚ) (t s : ℕ), 0 < c.sample_rate → 0 < bpm →
      ((t : ℚ) / (TICKS_PER_QUARTER : ℚ)) / (bpm / 60) * c.sample_rate = (s : ℚ) →
      c.sample_to_tick (c.tick_to_sample t bpm) bpm = t)
    ∧ (∀ t ∈ ([0, 480, 960, 1920] : List ℕ), ∀ bpm ∈ ([40, 120, 300] : List ℚ),
        clock48.sample_to_tick (clock48.tick_to_sample t bpm) bpm = t) := by
  have hsr : (0 : ℚ) < clock48.sample_rate := by norm_num [clock48]
  refine ⟨fun c bpm t s h1 h2 h3 => (clock_round_trip_aux c bpm t s h1 h2 h3).2, ?_⟩
  intro t ht bpm hbpm
  fin_cases ht <;> fin_cases hbpm
  · exact (clock_round_trip_aux clock48 40 0 0 hsr (by norm_num)
      (by norm_num [clock48, TICKS_PER_QUARTER])).2
  · exact (clock_round_trip_aux clock48 120 0 0 hsr (by norm_num)
      (by norm_num [clock48, TICKS_PER_QUARTER])).2
  · exact (clock_round_trip_aux clock48 300 0 0 hsr (by norm_num)
      (by norm_num [clock48, TICKS_PER_QUARTER])).2
  · exact (clock_round_trip_aux clock48 40 480 72000 hsr (by norm_num)
      (by norm_num [clock48, TICKS_PER_QUARTER])).2
  · exact (clock_round_trip_aux clock48 120 480 24000 hsr (by norm_num)
      (by norm_num [clock48, TICKS_PER_QUARTER])).2
  · exact (clock_round_trip_aux clock48 300 480 9600 hsr (by norm_num)
      (by norm_num [clock48, TICKS_PER_QUARTER])).2
  · exact (clock_round_trip_aux clock48 40 960 144000 hsr (by norm_num)
      (by norm_num [clock48, TICKS_PER_QUARTER])).2
  · exact (clock_round_trip_aux clock48 120 960 48000 hsr (by norm_num)
      (by norm_num [clock48, TICKS_PER_QUARTER])).2
  · exact (clock_round_trip_aux clock48 300 960 19200 hsr (by norm_num)
      (by norm_num [clock48, TICKS_PER_QUARTER])).2
  · exact (clock_round_trip_aux clock48 40 1920 288000 hsr (by norm_num)
      (by norm_num [clock48, TICKS_PER_QUARTER])).2
  · exact (clock_round_trip_aux clock48 120 1920 96000 hsr (by norm_num)
      (by norm_num [clock48, TICKS_PER_QUARTER])).2
  · exact (clock_round_trip_aux clock48 300 1920 38400 hsr (by norm_num)
      (by norm_num [clock48, TICKS_PER_QUARTER])).2

/-- C2 witness: the general round trip applied to tick 480 at 120 BPM and
48 kHz, whose exact sample position is 24000. -/
theorem clock_round_trip_on_grid_witness :
    (0 : ℚ) < clock48.sample_rate ∧ (0 : ℚ) < 120
      ∧ ((480 : ℚ) / (TICKS_PER_QUARTER : ℚ)) / ((120 : ℚ) / 60) * clock48.sample_rate
          = ((24000 : ℕ) : ℚ)
      ∧ clock48.sample_to_tick (clock48.tick_to_sample 480 120) 120 = 480 := by
  refine ⟨by norm_num [clock48], by norm_num, by norm_num [clock48, TICKS_PER_QUARTER], ?_⟩
  exact clock_round_trip_on_grid.1 clock48 120 480 24000 (by norm_num [clock48])
    (by norm_num) (by norm_num [clock48, TICKS_PER_QUARTER])

/-- C8: for a buffer whose channels all have capacity C and frames ≤ C,
prepare(frames) sets the active frame count, zero-fills exactly the first
frames samples of every channel, leaves the samples from frames to C
unchanged, keeps every channel at length C, and channel / channel_mut then
return slices of length exactly frames. -/
theorem audio_buffer_prepare_spec (b : AudioBuffer) (C frames : ℕ)
    (hlen : ∀ ch ∈ b.data, ch.length = C) (hf : frames ≤ C) :
    (b.prepare frames).frames = frames
    ∧ (b.prepare frames).data.length = b.data.length
    ∧ ∀ i, i < b.data.length →
        ((b.prepare frames).data.getD i []).length = C
        ∧ ((b.prepare frames).data.getD i []).take frames = List.replicate frames 0
        ∧ ((b.prepare frames).data.getD i []).drop frames = (b.data.getD i []).drop frames
        ∧ ((b.prepare frames).channel i).length = frames
        ∧ ((b.prepare frames).channel_mut i).length = frames := by
  refine ⟨rfl, by simp [AudioBuffer.prepare], fun i hi => ?_⟩
  have hchlen : (b.data.getD i []).length = C := by
    rw [List.getD_eq_getElem?_getD, List.getElem?_eq_getElem hi]
    exact hlen _ (List.getElem_mem hi)
  have hget : (b.prepare frames).data.getD i []
      = AudioBuffer.zeroFill frames (b.data.getD i []) := by
    show (b.data.map (AudioBuffer.zeroFill frames)).getD i [] = _
    rw [List.getD_eq_getElem?_getD, List.getElem?_map, List.getElem?_eq_getElem hi,
      List.getD_eq_getElem?_getD, List.getElem?_eq_getElem hi]
    rfl
  have hreplen : (List.replicate (min frames (b.data.getD i []).length) (0 : ℚ)).length
      = frames := by
    rw [List.length_replicate, hchlen]
    omega
  have hdroplen : ((b.data.getD i []).drop frames).length = C - frames := by
    rw [List.length_drop, hchlen]
  constructor
  · rw [hget]
    unfold AudioBuffer.zeroFill
    rw [List.length_append, hreplen, hdroplen]
    omega
  constructor
  · rw [hget]
    unfold AudioBuffer.zeroFill
    rw [List.take_left' hreplen, hchlen]
    congr 1
    omega
  constructor
  · rw [hget]
    unfold AudioBuffer.zeroFill
    rw [List.drop_left' hreplen]
  constructor
  · show (((b.prepare frames).data.getD i []).take (b.prepare frames).frames).length = frames
    rw [hget]
    show ((AudioBuffer.zeroFill frames (b.data.getD i [])).take frames).length = frames
    rw [List.length_take]
    unfold AudioBuffer.zeroFill
    rw [List.length_append, hreplen, hdroplen]
    omega
  · show (((b.prepare frames).data.getD i []).take (b.prepare frames).frames).length = frames
    rw [hget]
    show ((AudioBuffer.zeroFill frames (b.data.getD i [])).take frames).length = frames
    rw [List.length_take]
    unfold AudioBuffer.zeroFill
    rw [List.length_append, hreplen, hdroplen]
    omega

/-- C8 witness: a two-channel capacity-3 buffer prepared to 2 frames has
channel slices of length exactly 2. -/
theorem audio_buffer_prepare_spec_witness :
    (∀ ch ∈ bufW.data, ch.length = 3) ∧ 2 ≤ 3
      ∧ ((bufW.prepare 2).channel 0).length = 2 :=
  ⟨by decide, by decide,
    (((audio_buffer_prepare_spec bufW 3 2 (by decide) (by decide)).2.2 0 (by decide)).2.2.2.1)⟩

/-- handleCalls distributes over list append. -/
theorem handleCalls_append (l1 l2 : List Action) :
    handleCalls (l1 ++ l2) = handleCalls l1 ++ handleCalls l2 := by
  induction l1 with
  | nil => rfl
  | cons a rest ih => cases a <;> simp [handleCalls, ih]

/-- renderedFrames distributes over list append. -/
theorem renderedFrames_append (l1 l2 : List Action) :
    renderedFrames (l1 ++ l2) = renderedFrames l1 ++ renderedFrames l2 := by
  induction l1 with
  | nil => rfl
  | cons a rest ih => cases a <;> simp [renderedFrames, ih, List.append_assoc]

/-- The recursive event walk agrees with the spec-worded foldl formulation
from any cursor and accumulated trace. -/
theorem evaluateNodeGo_foldl (N : ℕ) :
    ∀ (events : List ScheduledEvent) (cursor : ℕ) (acc : List Action),
      acc ++ evaluateNodeGo N cursor events
        = (events.foldl specStep (cursor, acc)).2
          ++ (if (events.foldl specStep (cursor, acc)).1 < N then
                [Action.render (events.foldl specStep (cursor, acc)).1 N] else []) := by
  intro events
  induction events with
  | nil => intro cursor acc; simp [evaluateNodeGo]
  | cons ev rest ih =>
    intro cursor acc
    have lhs : acc ++ evaluateNodeGo N cursor (ev :: rest)
        = (acc ++ (if ev.sample_offset > cursor then
              [Action.render cursor ev.sample_offset] else [])
            ++ [Action.handle ev.event]) ++ evaluateNodeGo N ev.sample_offset rest := by
      simp [evaluateNodeGo, List.append_assoc]
    rw [lhs, List.foldl_cons]
    exact ih ev.sample_offset _

/-- Every render call the walk emits covers a non-empty frame range. -/
theorem render_pos_go (N : ℕ) :
    ∀ (events : List ScheduledEvent) (cursor lo hi : ℕ),
      Action.render lo hi ∈ evaluateNodeGo N cursor events → lo < hi := by
  intro events
  induction events with
  | nil =>
    intro cursor lo hi h
    simp only [evaluateNodeGo] at h
    split at h
    · simp only [List.mem_singleton, Action.render.injEq] at h
      omega
    · simp at h
  | cons ev rest ih =>
    intro cursor lo hi h
    simp only [evaluateNodeGo, List.mem_append] at h
    rcases h with h | h
    · split at h
      · simp only [List.mem_singleton, Action.render.injEq] at h
        omega
      · simp at h
    · rcases List.mem_cons.mp h with h | h
      · simp at h
      · exact ih _ _ _ h

/-- The walk passes exactly the events, in order, to handle_event. -/
theorem handleCalls_go (N : ℕ) :
    ∀ (events : List ScheduledEvent) (cursor : ℕ),
      handleCalls (evaluateNodeGo N cursor events) = events.map ScheduledEvent.event := by
  intro events
  induction events with
  | nil => intro cursor; simp only [evaluateNodeGo]; split <;> rfl
  | cons ev rest ih =>
    intro cursor
    simp only [evaluateNodeGo]
    rw [handleCalls_append]
    split <;> simp [handleCalls, ih]

/-- Two adjacent frame ranges concatenate to one. -/
theorem range'_glue (a b c : ℕ) (hab : a ≤ b) (hbc : b ≤ c) :
    List.range' a (b - a) ++ List.range' b (c - b) = List.range' a (c - a) := by
  have h := List.range'_append a (b - a) (c - b) 1
  have h1 : a + 1 * (b - a) = b := by omega
  have h2 : c - b + (b - a) = c - a := by omega
  rw [h1, h2] at h
  exact h

/-- With offsets ascending from the cursor and bounded by N, the render
calls of the walk tile exactly the frames from the cursor to N. -/
theorem renderedFrames_go (N : ℕ) :
    ∀ (events : List ScheduledEvent) (cursor : ℕ), cursor ≤ N →
      List.Chain (· ≤ ·) cursor (events.map ScheduledEvent.sample_offset) →
      (∀ e ∈ events, e.sample_offset ≤ N) →
      renderedFrames (evaluateNodeGo N cursor events) = List.range' cursor (N - cursor) := by
  intro events
  induction events with
  | nil =>
    intro cursor hc _ _
    simp only [evaluateNodeGo]
    split
    · simp [renderedFrames]
    · have h0 : N - cursor = 0 := by omega
      rw [h0]
      rfl
  | cons ev rest ih =>
    intro cursor hcN hchain hbound
    simp only [List.map_cons] at hchain
    obtain ⟨hco, hchain'⟩ := List.chain_cons.mp hchain
    have hoffN : ev.sample_offset ≤ N := hbound ev (by simp)
    have hrest := ih ev.sample_offset hoffN hchain'
      (fun e he => hbound e (List.mem_cons_of_mem _ he))
    simp only [evaluateNodeGo]
    rw [renderedFrames_append]
    have hcons : renderedFrames (Action.handle ev.event :: evaluateNodeGo N ev.sample_offset rest)
        = renderedFrames (evaluateNodeGo N ev.sample_offset rest) := rfl
    split
    · rename_i hgt
      rw [hcons, hrest]
      have hsingle : renderedFrames [Action.render cursor ev.sample_offset]
          = List.range' cursor (ev.sample_offset - cursor) := by
        simp [renderedFrames]
      rw [hsingle]
      exact range'_glue cursor ev.sample_offset N (Nat.le_of_lt hgt) hoffN
    · rename_i hle
      have heq : ev.sample_offset = cursor := by omega
      rw [hcons, hrest, heq]
      rfl

/-- C1: evaluate_node produces exactly the cursor-walk call sequence of the
spec — it equals the spec-worded foldl formulation; it passes the events in
order to handle_event; every render range is non-empty (no render between
events sharing an offset); for sorted in-range events the render calls tile
0..N exactly once; and the edge cases hold: an event at offset 0 has no
leading render, an event at offset N no trailing render, an empty event
list gives one render over 0..N, and N = 0 with no events gives no calls. -/
theorem evaluate_node_call_sequence (N : ℕ) (events : List ScheduledEvent) :
    evaluate_node N events = specSlicing N events
    ∧ handleCalls (evaluate_node N events) = events.map ScheduledEvent.event
    ∧ (∀ lo hi, Action.render lo hi ∈ evaluate_node N events → lo < hi)
    ∧ (sortedByOffset events → (∀ e ∈ events, e.sample_offset ≤ N) →
        renderedFrames (evaluate_node N events) = List.range N)
    ∧ evaluate_node 0 ([] : List ScheduledEvent) = []
    ∧ (0 < N → evaluate_node N ([] : List ScheduledEvent) = [Action.render 0 N])
    ∧ (∀ e, 0 < N →
        evaluate_node N [⟨0, e⟩] = [Action.handle e, Action.render 0 N])
    ∧ (∀ e, evaluate_node N [⟨N, e⟩]
        = (if 0 < N then [Action.render 0 N] else []) ++ [Action.handle e])
    ∧ (∀ o e1 e2, 0 < o → o < N →
        evaluate_node N [⟨o, e1⟩, ⟨o, e2⟩]
          = [Action.render 0 o, Action.handle e1, Action.handle e2,
             Action.render o N]) := by
  refine ⟨?_, handleCalls_go N events 0, render_pos_go N events 0, ?_, rfl, ?_, ?_, ?_, ?_⟩
  · have h := evaluateNodeGo_foldl N events 0 []
    simpa [evaluate_node, specSlicing] using h
  · intro hs hb
    have hpair : List.Pairwise (· ≤ ·) (events.map ScheduledEvent.sample_offset) :=
      List.pairwise_map.mpr hs
    have hchain : List.Chain (· ≤ ·) 0 (events.map ScheduledEvent.sample_offset) := by
      have hch' : List.Chain' (· ≤ ·) (0 :: events.map ScheduledEvent.sample_offset) :=
        List.chain'_iff_pairwise.mpr (List.Pairwise.cons (fun x _ => Nat.zero_le x) hpair)
      exact hch'
    have h := renderedFrames_go N events 0 (Nat.zero_le N) hchain hb
    rw [List.range_eq_range']
    simpa using h
  · intro hN
    simp [evaluate_node, evaluateNodeGo, hN]
  · intro e hN
    simp [evaluate_node, evaluateNodeGo, hN]
  · intro e
    by_cases hN : 0 < N
    · simp [evaluate_node, evaluateNodeGo, hN]
    · have h0 : N = 0 := by omega
      subst h0
      simp [evaluate_node, evaluateNodeGo]
  · intro o e1 e2 ho hoN
    simp [evaluate_node, evaluateNodeGo, ho, hoN]

/-- C1 witness: two sorted in-range events at offsets 2 and 5 in an 8-frame
buffer; the render calls tile the frames 0..8 exactly. -/
theorem evaluate_node_call_sequence_witness :
    sortedByOffset [⟨2, evW⟩, ⟨5, evW⟩]
    ∧ (∀ e ∈ ([⟨2, evW⟩, ⟨5, evW⟩] : List ScheduledEvent), e.sample_offset ≤ 8)
    ∧ renderedFrames (evaluate_node 8 [⟨2, evW⟩, ⟨5, evW⟩]) = List.range 8 := by
  have hs : sortedByOffset [⟨2, evW⟩, ⟨5, evW⟩] := by
    unfold sortedByOffset
    decide
  have hb : ∀ e ∈ ([⟨2, evW⟩, ⟨5, evW⟩] : List ScheduledEvent), e.sample_offset ≤ 8 := by
    decide
  exact ⟨hs, hb, (evaluate_node_call_sequence 8 [⟨2, evW⟩, ⟨5, evW⟩]).2.2.2.1 hs hb⟩

/-- Clamping to the unit interval from above yields 1. -/
theorem clampQ_eq_one (x : ℚ) (hx : 1 ≤ x) : Envelope.clampQ x 0 1 = 1 := by
  rw [Envelope.clampQ, min_eq_right hx, max_eq_right zero_le_one]

/-- clampQ lands in the clamping interval. -/
theorem clampQ_mem (x lo hi : ℚ) (h : lo ≤ hi) :
    lo ≤ Envelope.clampQ x lo hi ∧ Envelope.clampQ x lo hi ≤ hi := by
  unfold Envelope.clampQ
  exact ⟨le_max_left _ _, max_le h (min_le_right _ _)⟩

/-- Case analysis of Envelope::tick in the Attack state, read off the
source: instant jump below the 1e-5 threshold, otherwise increment and
transition to Decay only when the new level strictly exceeds 1. -/
theorem tick_attack_cases (e : Envelope) (sr : ℚ) (hst : e.state = EState.attack) :
    (e.attack < Envelope.eps → e.tick sr = { e with level := 1, state := EState.decay })
    ∧ (Envelope.eps ≤ e.attack → 1 < e.level + 1 / (e.attack * sr) →
        e.tick sr = { e with level := Envelope.clampQ (e.level + 1 / (e.attack * sr)) 0 1, state := EState.decay })
    ∧ (Envelope.eps ≤ e.attack → e.level + 1 / (e.attack * sr) ≤ 1 →
        e.tick sr = { e with level := e.level + 1 / (e.attack * sr) }) := by
  obtain ⟨st, lv, a, d, s, rt, rs⟩ := e
  dsimp only at hst
  subst hst
  refine ⟨fun h => ?_, fun h1 h2 => ?_, fun h1 h2 => ?_⟩
  · dsimp only [Envelope.tick]
    rw [if_pos h]
  · dsimp only [Envelope.tick]
    rw [if_neg (not_lt.mpr h1), if_pos h2]
  · dsimp only [Envelope.tick]
    rw [if_neg (not_lt.mpr h1), if_neg (not_lt.mpr h2)]

/-- Case analysis of Envelope::tick in the Release state, read off the
source: instant jump below the 1e-5 threshold, otherwise decrement by
release_start over the release duration and transition to Idle only when
the new level goes strictly below 0. -/
theorem tick_release_cases (e : Envelope) (sr : ℚ) (hst : e.state = EState.release) :
    (e.releaseTime < Envelope.eps → e.tick sr = { e with level := 0, state := EState.idle })
    ∧ (Envelope.eps ≤ e.releaseTime →
        e.level - e.release_start / (e.releaseTime * sr) < 0 →
        e.tick sr = { e with level := 0, state := EState.idle })
    ∧ (Envelope.eps ≤ e.releaseTime →
        0 ≤ e.level - e.release_start / (e.releaseTime * sr) →
        e.tick sr = { e with level := e.level - e.release_start / (e.releaseTime * sr) }) := by
  obtain ⟨st, lv, a, d, s, rt, rs⟩ := e
  dsimp only at hst
  subst hst
  refine ⟨fun h => ?_, fun h1 h2 => ?_, fun h1 h2 => ?_⟩
  · dsimp only [Envelope.tick]
    rw [if_pos h]
  · dsimp only [Envelope.tick]
    rw [if_neg (not_lt.mpr h1), if_pos h2]
  · dsimp only [Envelope.tick]
    rw [if_neg (not_lt.mpr h1), if_neg (not_lt.mpr h2)]

/-- C5 counterexample: an Attack envelope with attack time 1 s at sample
rate 1 reaches level exactly 1 in one tick, yet stays in Attack instead of
moving to Decay — the code transitions only when the level strictly
exceeds 1, not on reaching it. -/
theorem envelope_attack_exact_one_cex :
    (attackCexEnv.tick 1).level = 1 ∧ (attackCexEnv.tick 1).state = EState.attack
      ∧ (attackCexEnv.tick 1).state ≠ EState.decay := by
  norm_num [Envelope.tick, attackCexEnv, Envelope.eps]
  decide

/-- C5 amended: in Attack with attack ≥ 1e-5, tick increments the level by
1/(attack·sample_rate); when the incremented level strictly exceeds 1 it is
clamped to 1 and the state moves to Decay; a level landing exactly on 1
stays in Attack for that tick and moves to Decay (at level 1) on the next
tick; attack < 1e-5 jumps straight to level 1 and Decay. -/
theorem envelope_attack_amended (e : Envelope) (sr : ℚ) (hst : e.state = EState.attack)
    (hsr : 0 < sr) :
    (e.attack < Envelope.eps → (e.tick sr).level = 1 ∧ (e.tick sr).state = EState.decay)
    ∧ (Envelope.eps ≤ e.attack → 1 < e.level + 1 / (e.attack * sr) →
        (e.tick sr).level = 1 ∧ (e.tick sr).state = EState.decay)
    ∧ (Envelope.eps ≤ e.attack → e.level + 1 / (e.attack * sr) ≤ 1 →
        (e.tick sr).level = e.level + 1 / (e.attack * sr)
          ∧ (e.tick sr).state = EState.attack)
    ∧ (Envelope.eps ≤ e.attack → e.level + 1 / (e.attack * sr) = 1 →
        ((e.tick sr).tick sr).level = 1 ∧ ((e.tick sr).tick sr).state = EState.decay) := by
  have hc := tick_attack_cases e sr hst
  refine ⟨fun h => ?_, fun h1 h2 => ?_, fun h1 h2 => ?_, fun h1 h2 => ?_⟩
  · rw [hc.1 h]
    exact ⟨rfl, rfl⟩
  · rw [hc.2.1 h1 h2]
    exact ⟨clampQ_eq_one _ (le_of_lt h2), rfl⟩
  · rw [hc.2.2 h1 h2]
    exact ⟨rfl, hst⟩
  · have ht1 : e.tick sr = { e with level := e.level + 1 / (e.attack * sr) } :=
      hc.2.2 h1 (le_of_eq h2)
    have ha : (0 : ℚ) < e.attack := lt_of_lt_of_le (by norm_num [Envelope.eps]) h1
    have hinc : (0 : ℚ) < 1 / (e.attack * sr) := by positivity
    rw [ht1]
    have hc2 := tick_attack_cases { e with level := e.level + 1 / (e.attack * sr) } sr hst
    have hgt : (1 : ℚ) <
        ({ e with level := e.level + 1 / (e.attack * sr) } : Envelope).level
          + 1 / (({ e with level := e.level + 1 / (e.attack * sr) } : Envelope).attack * sr) := by
      show (1 : ℚ) < e.level + 1 / (e.attack * sr) + 1 / (e.attack * sr)
      rw [h2]
      linarith
    rw [hc2.2.1 h1 hgt]
    refine ⟨clampQ_eq_one _ (le_of_lt hgt), rfl⟩

/-- C5 witness: the amended statement at the envelope whose increment lands
exactly on 1, showing the Decay transition happens on the second tick. -/
theorem envelope_attack_amended_witness :
    attackCexEnv.state = EState.attack ∧ (0 : ℚ) < 1
      ∧ Envelope.eps ≤ attackCexEnv.attack
      ∧ attackCexEnv.level + 1 / (attackCexEnv.attack * 1) = 1
      ∧ ((attackCexEnv.tick 1).tick 1).level = 1
      ∧ ((attackCexEnv.tick 1).tick 1).state = EState.decay := by
  have h1 : Envelope.eps ≤ attackCexEnv.attack := by
    norm_num [attackCexEnv, Envelope.eps]
  have h2 : attackCexEnv.level + 1 / (attackCexEnv.attack * 1) = 1 := by
    norm_num [attackCexEnv]
  have h := (envelope_attack_amended attackCexEnv 1 rfl (by norm_num)).2.2.2 h1 h2
  exact ⟨rfl, by norm_num, h1, h2, h.1, h.2⟩

/-- C6 counterexample: a Release envelope decrementing by exactly 1/2 per
tick from level 1/2 reaches level exactly 0, yet stays in Release instead
of moving to Idle — the code transitions only when the level goes strictly
below 0, not on reaching it. -/
theorem envelope_release_exact_zero_cex :
    (releaseCexEnv.tick 2).level = 0 ∧ (releaseCexEnv.tick 2).state = EState.release
      ∧ (releaseCexEnv.tick 2).state ≠ EState.idle := by
  norm_num [Envelope.tick, releaseCexEnv, Envelope.eps]
  decide

/-- C6 amended: release() captures the current level as release_start and
enters Release from any state; in Release with release ≥ 1e-5, tick
decrements the level by the constant release_start/(release·sample_rate);
when the level goes strictly below 0 it is set to 0 and the state moves to
Idle; a level landing exactly on 0 stays in Release for that tick and (for
positive release_start) moves to Idle on the next tick; release < 1e-5
jumps straight to 0 and Idle. -/
theorem envelope_release_amended (e : Envelope) (sr : ℚ) :
    e.release = { e with release_start := e.level, state := EState.release }
    ∧ (e.state = EState.release →
        (e.releaseTime < Envelope.eps →
          (e.tick sr).level = 0 ∧ (e.tick sr).state = EState.idle)
        ∧ (Envelope.eps ≤ e.releaseTime →
            e.level - e.release_start / (e.releaseTime * sr) < 0 →
            (e.tick sr).level = 0 ∧ (e.tick sr).state = EState.idle)
        ∧ (Envelope.eps ≤ e.releaseTime →
            0 ≤ e.level - e.release_start / (e.releaseTime * sr) →
            (e.tick sr).level = e.level - e.release_start / (e.releaseTime * sr)
              ∧ (e.tick sr).state = EState.release)
        ∧ (Envelope.eps ≤ e.releaseTime → 0 < sr → 0 < e.release_start →
            e.level - e.release_start / (e.releaseTime * sr) = 0 →
            ((e.tick sr).tick sr).level = 0
              ∧ ((e.tick sr).tick sr).state = EState.idle)) := by
  refine ⟨rfl, fun hst => ?_⟩
  have hc := tick_release_cases e sr hst
  refine ⟨fun h => ?_, fun h1 h2 => ?_, fun h1 h2 => ?_, fun h1 hsr hrs h2 => ?_⟩
  · rw [hc.1 h]
    exact ⟨rfl, rfl⟩
  · rw [hc.2.1 h1 h2]
    exact ⟨rfl, rfl⟩
  · rw [hc.2.2 h1 h2]
    exact ⟨rfl, hst⟩
  · have ht1 : e.tick sr = { e with level := e.level - e.release_start / (e.releaseTime * sr) } :=
      hc.2.2 h1 (le_of_eq h2.symm)
    have hrt : (0 : ℚ) < e.releaseTime := lt_of_lt_of_le (by norm_num [Envelope.eps]) h1
    have hdec : (0 : ℚ) < e.release_start / (e.releaseTime * sr) := by positivity
    rw [ht1]
    have hc2 := tick_release_cases
      { e with level := e.level - e.release_start / (e.releaseTime * sr) } sr hst
    have hlt :
        ({ e with level := e.level - e.release_start / (e.releaseTime * sr) } : Envelope).level
          - ({ e with level := e.level - e.release_start / (e.releaseTime * sr) } :
              Envelope).release_start
            / (({ e with level := e.level - e.release_start / (e.releaseTime * sr) } :
                Envelope).releaseTime * sr) < 0 := by
      show e.level - e.release_start / (e.releaseTime * sr)
        - e.release_start / (e.releaseTime * sr) < 0
      rw [h2]
      linarith
    rw [hc2.2.1 h1 hlt]
    exact ⟨rfl, rfl⟩

/-- C6 witness: the amended statement at the envelope whose decrement lands
exactly on 0, showing the Idle transition happens on the second tick. -/
theorem envelope_release_amended_witness :
    releaseCexEnv.state = EState.release
      ∧ Envelope.eps ≤ releaseCexEnv.releaseTime
      ∧ (0 : ℚ) < 2 ∧ (0 : ℚ) < releaseCexEnv.release_start
      ∧ releaseCexEnv.level
          - releaseCexEnv.release_start / (releaseCexEnv.releaseTime * 2) = 0
      ∧ ((releaseCexEnv.tick 2).tick 2).level = 0
      ∧ ((releaseCexEnv.tick 2).tick 2).state = EState.idle := by
  have h1 : Envelope.eps ≤ releaseCexEnv.releaseTime := by
    norm_num [releaseCexEnv, Envelope.eps]
  have hrs : (0 : ℚ) < releaseCexEnv.release_start := by norm_num [releaseCexEnv]
  have h2 : releaseCexEnv.level
      - releaseCexEnv.release_start / (releaseCexEnv.releaseTime * 2) = 0 := by
    norm_num [releaseCexEnv]
  have h := ((envelope_release_amended releaseCexEnv 2).2 rfl).2.2.2 h1 (by norm_num) hrs h2
  exact ⟨rfl, h1, by norm_num, hrs, h2, h.1, h.2⟩

/-- One tick preserves the envelope level invariant at a positive sample
rate. -/
theorem envInv_tick (e : Envelope) (sr : ℚ) (hI : EnvInv e) (hsr : 0 < sr) :
    EnvInv (e.tick sr) := by
  obtain ⟨st, lv, a, d, s, rt, rs⟩ := e
  unfold EnvInv at hI ⊢
  dsimp only at hI ⊢
  obtain ⟨h1, h2, h3, h4, h5, h6⟩ := hI
  cases st
  · exact ⟨h1, h2, h3, h4, h5, h6⟩
  · dsimp only [Envelope.tick]
    split_ifs with hA hB
    · exact ⟨zero_le_one, le_refl 1, h3, h4, h5, h6⟩
    · have hcl := clampQ_mem (lv + 1 / (a * sr)) 0 1 zero_le_one
      exact ⟨hcl.1, hcl.2, h3, h4, h5, h6⟩
    · have ha : (0 : ℚ) < a := lt_of_lt_of_le (by norm_num [Envelope.eps]) (not_lt.mp hA)
      have hinc : (0 : ℚ) < 1 / (a * sr) := by positivity
      exact ⟨add_nonneg h1 (le_of_lt hinc), not_lt.mp hB, h3, h4, h5, h6⟩
  · dsimp only [Envelope.tick]
    split_ifs with hA hB
    · exact ⟨h3, h4, h3, h4, h5, h6⟩
    · have hcl := clampQ_mem (lv - (1 - s) / (d * sr)) 0 s h3
      exact ⟨hcl.1, le_trans hcl.2 h4, h3, h4, h5, h6⟩
    · have hd : (0 : ℚ) < d := lt_of_lt_of_le (by norm_num [Envelope.eps]) (not_lt.mp hA)
      have hdec : (0 : ℚ) ≤ (1 - s) / (d * sr) := by
        apply div_nonneg (by linarith) (le_of_lt (mul_pos hd hsr))
      exact ⟨le_trans h3 (not_lt.mp hB), by linarith, h3, h4, h5, h6⟩
  · exact ⟨h1, h2, h3, h4, h5, h6⟩
  · dsimp only [Envelope.tick]
    split_ifs with hA hB
    · exact ⟨le_refl 0, zero_le_one, h3, h4, h5, h6⟩
    · exact ⟨le_refl 0, zero_le_one, h3, h4, h5, h6⟩
    · have hrt : (0 : ℚ) < rt := lt_of_lt_of_le (by norm_num [Envelope.eps]) (not_lt.mp hA)
      have hdec : (0 : ℚ) ≤ rs / (rt * sr) := by
        apply div_nonneg h5 (le_of_lt (mul_pos hrt hsr))
      exact ⟨not_lt.mp hB, by linarith, h3, h4, h5, h6⟩

/-- Every well-formed interface call preserves the envelope level
invariant. -/
theorem envInv_applyCall (e : Envelope) (c : Envelope.ECall) (hI : EnvInv e)
    (hc : Envelope.wfCall c) : EnvInv (Envelope.applyCall e c) := by
  obtain ⟨h1, h2, h3, h4, h5, h6⟩ := hI
  cases c with
  | trigger => exact ⟨le_refl 0, zero_le_one, h3, h4, h5, h6⟩
  | release => exact ⟨h1, h2, h3, h4, h1, h2⟩
  | adsr a d s r =>
    obtain ⟨_, _, hs0, hs1, _⟩ := hc
    exact ⟨h1, h2, hs0, hs1, h5, h6⟩
  | reset => exact ⟨le_refl 0, zero_le_one, h3, h4, h5, h6⟩
  | tick sr => exact envInv_tick e sr ⟨h1, h2, h3, h4, h5, h6⟩ hc

/-- A sequence of well-formed interface calls preserves the envelope level
invariant. -/
theorem envInv_runCalls (cs : List Envelope.ECall) :
    ∀ e : Envelope, EnvInv e → (∀ c ∈ cs, Envelope.wfCall c) →
      EnvInv (Envelope.runCalls e cs) := by
  induction cs with
  | nil => intro e hI _; exact hI
  | cons c rest ih =>
    intro e hI hwf
    exact ih (Envelope.applyCall e c) (envInv_applyCall e c hI (hwf c (by simp)))
      (fun x hx => hwf x (List.mem_cons_of_mem _ hx))

/-- C10: starting from a fresh envelope, after any sequence of trigger,
release, adsr, reset and tick calls whose adsr arguments have sustain in
the unit interval and non-negative times and whose tick sample rates are
positive, the stored level stays in the closed unit interval, and so does
the value returned by a further tick at any positive sample rate. -/
theorem envelope_level_bounded (cs : List Envelope.ECall)
    (h : ∀ c ∈ cs, Envelope.wfCall c) :
    (0 ≤ (Envelope.runCalls Envelope.new cs).level
      ∧ (Envelope.runCalls Envelope.new cs).level ≤ 1)
    ∧ ∀ sr : ℚ, 0 < sr →
        0 ≤ ((Envelope.runCalls Envelope.new cs).tick sr).level
        ∧ ((Envelope.runCalls Envelope.new cs).tick sr).level ≤ 1 := by
  have hnew : EnvInv Envelope.new := by
    unfold EnvInv Envelope.new
    norm_num
  have hrun := envInv_runCalls cs Envelope.new hnew h
  refine ⟨⟨hrun.1, hrun.2.1⟩, fun sr hsr => ?_⟩
  have htick := envInv_tick _ sr hrun hsr
  exact ⟨htick.1, htick.2.1⟩

/-- C10 witness: the invariant at a concrete well-formed call sequence. -/
theorem envelope_level_bounded_witness :
    (∀ c ∈ csW, Envelope.wfCall c)
      ∧ 0 ≤ (Envelope.runCalls Envelope.new csW).level
      ∧ (Envelope.runCalls Envelope.new csW).level ≤ 1 := by
  have hw : ∀ c ∈ csW, Envelope.wfCall c := by
    intro c hc
    fin_cases hc <;> norm_num [Envelope.wfCall]
  exact ⟨hw, (envelope_level_bounded csW hw).1.1, (envelope_level_bounded csW hw).1.2⟩

/-- getD at an in-range index is a member of the list. -/
theorem getD_mem_of_lt {α : Type} (l : List α) (i : ℕ) (d : α) (h : i < l.length) :
    l.getD i d ∈ l := by
  rw [List.getD_eq_getElem l d h]
  exact List.getElem_mem h

/-- getD after set at the written index. -/
theorem getD_set_eq {α : Type} (l : List α) (i : ℕ) (a d : α) (h : i < l.length) :
    (l.set i a).getD i d = a := by
  rw [List.getD_eq_getElem?_getD, List.getElem?_set]
  simp [h]

/-- getD after set at a different index. -/
theorem getD_set_ne {α : Type} (l : List α) (i j : ℕ) (a d : α) (h : i ≠ j) :
    (l.set i a).getD j d = l.getD j d := by
  rw [List.getD_eq_getElem?_getD, List.getElem?_set, if_neg h, ← List.getD_eq_getElem?_getD]

/-- findIdx? starting at s returns the position of the first satisfying
element: the predicate holds there and fails strictly before. -/
theorem findIdx?_some_spec {α : Type} (p : α → Bool) (d : α) :
    ∀ (l : List α) (s i : ℕ), List.findIdx? p l s = some i →
      s ≤ i ∧ i - s < l.length ∧ p (l.getD (i - s) d) = true
        ∧ ∀ j < i - s, p (l.getD j d) = false := by
  intro l
  induction l with
  | nil =>
    intro s i h
    rw [List.findIdx?_nil] at h
    exact absurd h (by simp)
  | cons x xs ih =>
    intro s i h
    rw [List.findIdx?_cons] at h
    by_cases hp : p x = true
    · rw [if_pos hp] at h
      obtain rfl : s = i := by injection h
      refine ⟨le_refl s, by simp, ?_, ?_⟩
      · simpa using hp
      · intro j hj
        omega
    · rw [if_neg hp] at h
      obtain ⟨hs, hlen, hpi, hbefore⟩ := ih (s + 1) i h
      have hdiff : i - s = (i - (s + 1)) + 1 := by omega
      refine ⟨by omega, by simp; omega, ?_, ?_⟩
      · rw [hdiff, List.getD_cons_succ]
        exact hpi
      · intro j hj
        match j with
        | 0 =>
          rw [List.getD_cons_zero]
          exact Bool.not_eq_true _ ▸ (by simpa using hp)
        | j' + 1 =>
          rw [List.getD_cons_succ]
          exact hbefore j' (by omega)

/-- The min_by_key fold keeps its starting candidate exactly when nothing
in the remaining list strictly beats it; otherwise it lands on the first
strict minimum of the remaining list. -/
theorem minAgeIndexGo_spec :
    ∀ (rest : List Voice) (b ba i : ℕ),
      (Pulse.minAgeIndexGo b ba i rest = b ∧ ∀ v ∈ rest, ba ≤ v.age)
      ∨ (∃ k, k < rest.length ∧ Pulse.minAgeIndexGo b ba i rest = i + k
          ∧ (rest.getD k Voice.new).age < ba
          ∧ (∀ j < k, (rest.getD k Voice.new).age < (rest.getD j Voice.new).age)
          ∧ (∀ j, k ≤ j → j < rest.length →
              (rest.getD k Voice.new).age ≤ (rest.getD j Voice.new).age)) := by
  intro rest
  induction rest with
  | nil =>
    intro b ba i
    left
    exact ⟨rfl, by simp⟩
  | cons v vs ih =>
    intro b ba i
    by_cases hlt : v.age < ba
    · have hstep : Pulse.minAgeIndexGo b ba i (v :: vs)
          = if v.age < ba then Pulse.minAgeIndexGo i v.age (i + 1) vs
            else Pulse.minAgeIndexGo b ba (i + 1) vs := rfl
      rw [hstep, if_pos hlt]
      rcases ih i v.age (i + 1) with ⟨hgo, hall⟩ | ⟨k, hk, hgo, hka, hbefore, hafter⟩
      · right
        refine ⟨0, by simp, by omega, by simpa using hlt, by omega, ?_⟩
        intro j _ hj
        match j with
        | 0 => exact le_refl _
        | j' + 1 =>
          rw [List.getD_cons_zero, List.getD_cons_succ]
          exact hall _ (getD_mem_of_lt vs j' Voice.new (by simp only [List.length_cons] at hj; omega))
      · right
        refine ⟨k + 1, by simp only [List.length_cons]; omega, by omega, ?_, ?_, ?_⟩
        · rw [List.getD_cons_succ]
          exact lt_trans hka hlt
        · intro j hj
          match j with
          | 0 =>
            rw [List.getD_cons_succ, List.getD_cons_zero]
            exact hka
          | j' + 1 =>
            rw [List.getD_cons_succ, List.getD_cons_succ]
            exact hbefore j' (by omega)
        · intro j hjk hj
          match j with
          | 0 => omega
          | j' + 1 =>
            rw [List.getD_cons_succ, List.getD_cons_succ]
            exact hafter j' (by omega) (by simp only [List.length_cons] at hj; omega)
    · have hstep : Pulse.minAgeIndexGo b ba i (v :: vs)
          = if v.age < ba then Pulse.minAgeIndexGo i v.age (i + 1) vs
            else Pulse.minAgeIndexGo b ba (i + 1) vs := rfl
      rw [hstep, if_neg hlt]
      rcases ih b ba (i + 1) with ⟨hgo, hall⟩ | ⟨k, hk, hgo, hka, hbefore, hafter⟩
      · left
        refine ⟨hgo, ?_⟩
        intro x hx
        rcases List.mem_cons.mp hx with rfl | hx
        · exact not_lt.mp hlt
        · exact hall x hx
      · right
        refine ⟨k + 1, by simp only [List.length_cons]; omega, by omega, ?_, ?_, ?_⟩
        · rw [List.getD_cons_succ]
          exact hka
        · intro j hj
          match j with
          | 0 =>
            rw [List.getD_cons_succ, List.getD_cons_zero]
            exact lt_of_lt_of_le hka (not_lt.mp hlt)
          | j' + 1 =>
            rw [List.getD_cons_succ, List.getD_cons_succ]
            exact hbefore j' (by omega)
        · intro j hjk hj
          match j with
          | 0 => omega
          | j' + 1 =>
            rw [List.getD_cons_succ, List.getD_cons_succ]
            exact hafter j' (by omega) (by simp only [List.length_cons] at hj; omega)

/-- minAgeIndex of a non-empty pool is an in-range index holding the
minimum age, with every earlier voice strictly older-stamped (larger would
be later); ties resolve to the first index. -/
theorem minAgeIndex_spec (voices : List Voice) (hne : voices ≠ []) :
    Pulse.minAgeIndex voices < voices.length
    ∧ (∀ j < voices.length,
        (voices.getD (Pulse.minAgeIndex voices) Voice.new).age
          ≤ (voices.getD j Voice.new).age)
    ∧ ∀ j < Pulse.minAgeIndex voices,
        (voices.getD (Pulse.minAgeIndex voices) Voice.new).age
          < (voices.getD j Voice.new).age := by
  match voices with
  | [] => exact absurd rfl hne
  | v :: vs =>
    have hidx : Pulse.minAgeIndex (v :: vs) = Pulse.minAgeIndexGo 0 v.age 1 vs := rfl
    rcases minAgeIndexGo_spec vs 0 v.age 1 with ⟨hgo, hall⟩ | ⟨k, hk, hgo, hka, hbefore, hafter⟩
    · rw [hidx, hgo]
      refine ⟨by simp, ?_, by omega⟩
      intro j hj
      match j with
      | 0 => exact le_refl _
      | j' + 1 =>
        rw [List.getD_cons_zero, List.getD_cons_succ]
        exact hall _ (getD_mem_of_lt vs j' Voice.new (by simp only [List.length_cons] at hj; omega))
    · rw [hidx, hgo]
      have hget : ((v :: vs).getD (1 + k) Voice.new) = vs.getD k Voice.new := by
        rw [show 1 + k = k + 1 from by omega, List.getD_cons_succ]
      refine ⟨by simp only [List.length_cons]; omega, ?_, ?_⟩
      · intro j hj
        rw [hget]
        match j with
        | 0 => exact le_of_lt hka
        | j' + 1 =>
          rw [List.getD_cons_succ]
          rcases lt_or_ge j' k with hjk | hjk
          · exact le_of_lt (hbefore j' hjk)
          · exact hafter j' hjk (by simp only [List.length_cons] at hj; omega)
      · intro j hj
        rw [hget]
        match j with
        | 0 => exact hka
        | j' + 1 =>
          rw [List.getD_cons_succ]
          exact hbefore j' (by omega)

/-- C4: on NoteOn the Pulse synth selects the first inactive voice if any
exists; otherwise the voice with the globally minimum age, ties to the
lowest index, regardless of its pitch or envelope state. The selected voice
is triggered with the incoming note, velocity and frequency and the current
global age, its envelope restarts in Attack at level 0 and receives the
synth's current shared ADSR parameters; every other voice is untouched and
the global age counter advances by one. -/
theorem pulse_note_on_voice_selection (noteToFreq : ℕ → ℚ) (p : Pulse) (note vel : ℕ)
    (h8 : p.voices.length = 8) :
    ∀ i q, i = Pulse.selectVoice p.voices →
      q = Pulse.handle_event noteToFreq p (Event.midi (MidiEvent.noteOn note vel)) →
      i < p.voices.length
      ∧ ((∃ j, j < p.voices.length ∧ (p.voices.getD j Voice.new).is_active = false) →
          ((p.voices.getD i Voice.new).is_active = false
            ∧ ∀ k < i, (p.voices.getD k Voice.new).is_active = true))
      ∧ ((∀ j, j < p.voices.length → (p.voices.getD j Voice.new).is_active = true) →
          ((∀ j, j < p.voices.length →
              (p.voices.getD i Voice.new).age ≤ (p.voices.getD j Voice.new).age)
            ∧ ∀ j < i, (p.voices.getD i Voice.new).age < (p.voices.getD j Voice.new).age))
      ∧ q.voices.getD i Voice.new = { phase := 0, frequency := noteToFreq note, velocity := vel, envelope := { state := EState.attack, level := 0, attack := p.attack, decay := p.decay, sustain := p.sustain, releaseTime := p.release, release_start := (p.voices.getD i Voice.new).envelope.release_start }, note := some note, age := p.next_age }
      ∧ (∀ j, j < p.voices.length → j ≠ i →
          q.voices.getD j Voice.new = p.voices.getD j Voice.new)
      ∧ q.next_age = p.next_age + 1
      ∧ q.voices.length = p.voices.length := by
  intro i q hi hq
  have hvoices : q.voices = p.voices.set (Pulse.selectVoice p.voices)
      (p.triggerVoice (p.voices.getD (Pulse.selectVoice p.voices) Voice.new) note vel
        (noteToFreq note)) := by rw [hq]; rfl
  have hage : q.next_age = p.next_age + 1 := by rw [hq]; rfl
  have hsel3 : i < p.voices.length
      ∧ ((∃ j, j < p.voices.length ∧ (p.voices.getD j Voice.new).is_active = false) →
          ((p.voices.getD i Voice.new).is_active = false
            ∧ ∀ k < i, (p.voices.getD k Voice.new).is_active = true))
      ∧ ((∀ j, j < p.voices.length → (p.voices.getD j Voice.new).is_active = true) →
          ((∀ j, j < p.voices.length →
              (p.voices.getD i Voice.new).age ≤ (p.voices.getD j Voice.new).age)
            ∧ ∀ j < i, (p.voices.getD i Voice.new).age < (p.voices.getD j Voice.new).age)) := by
    cases hf : p.voices.findIdx? (fun v => !v.is_active) with
    | some idx =>
      have hsel : i = idx := by rw [hi]; unfold Pulse.selectVoice; rw [hf]
      have hspec := findIdx?_some_spec (fun v => !v.is_active) Voice.new p.voices 0 idx hf
      simp only [Nat.sub_zero] at hspec
      obtain ⟨-, hlen, hpi, hbef⟩ := hspec
      have hinact : (p.voices.getD idx Voice.new).is_active = false := by
        simpa using hpi
      subst hsel
      refine ⟨hlen, fun _ => ⟨hinact, fun k hk => ?_⟩, fun hall => ?_⟩
      · have := hbef k hk
        simpa using this
      · exact absurd (hall i hlen) (by rw [hinact]; simp)
    | none =>
      have hsel : i = Pulse.minAgeIndex p.voices := by
        rw [hi]; unfold Pulse.selectVoice; rw [hf]
      have hallact : ∀ v ∈ p.voices, (!v.is_active) = false :=
        List.findIdx?_eq_none_iff.mp hf
      have hne : p.voices ≠ [] := by
        intro h0
        rw [h0] at h8
        simp at h8
      have hmspec := minAgeIndex_spec p.voices hne
      subst hsel
      refine ⟨hmspec.1, fun hex => ?_, fun _ => ⟨hmspec.2.1, hmspec.2.2⟩⟩
      obtain ⟨j, hj, hinact⟩ := hex
      have := hallact _ (getD_mem_of_lt p.voices j Voice.new hj)
      rw [hinact] at this
      simp at this
  refine ⟨hsel3.1, hsel3.2.1, hsel3.2.2, ?_, ?_, hage, ?_⟩
  · rw [hvoices, ← hi, getD_set_eq _ _ _ _ (hi ▸ hsel3.1)]
    rfl
  · intro j hj hji
    rw [hvoices, ← hi, getD_set_ne _ _ _ _ _ (fun h => hji h.symm)]
  · rw [hvoices, List.length_set]

/-- C4 witness: handling a NoteOn on the fresh 8-voice synth advances the
global age counter. -/
theorem pulse_note_on_voice_selection_witness :
    Pulse.new.voices.length = 8
      ∧ (Pulse.handle_event (fun _ => 440) Pulse.new
          (Event.midi (MidiEvent.noteOn 60 100))).next_age = Pulse.new.next_age + 1 := by
  refine ⟨rfl, ?_⟩
  have h := pulse_note_on_voice_selection (fun _ => 440) Pulse.new 60 100 rfl
    (Pulse.selectVoice Pulse.new.voices)
    (Pulse.handle_event (fun _ => 440) Pulse.new (Event.midi (MidiEvent.noteOn 60 100)))
    rfl rfl
  exact h.2.2.2.2.2.1

end Motif
